import Mathlib

/-!
Verification of the page-oriented SQLCipher-style codec of tbxark-fork/chatlog
(internal/wechat/decrypt).  Bytes are modelled as natural numbers, byte
buffers as `List Nat`.  The hash/HMAC primitive and the AES block cipher are
library calls in the source, so they enter the model as explicit function
parameters (`hmacF`, `encB`, `decB`); everything the repository itself
computes — page layout, CBC chaining, HMAC domain, PBKDF2 schedule, the
streaming encryptor loop — is embedded from the Go source.
-/

namespace Chatlog

/-! ## Constants (internal/wechat/decrypt/common/common.go) -/

def KeySize : Nat := 32

def SaltSize : Nat := 16

def AESBlockSize : Nat := 16

def IVSize : Nat := 16

/-- The bytes of the string constant SQLiteHeader = "SQLite format 3\x00". -/
def sqliteHeader : List Nat :=
  [0x53, 0x51, 0x4c, 0x69, 0x74, 0x65, 0x20, 0x66,
   0x6f, 0x72, 0x6d, 0x61, 0x74, 0x20, 0x33, 0x00]

/-- Modelled from the spec: HMAC_SIZE = 64 bytes (HMAC-SHA-512).  The Go
constant `HmacSHA512Size` is declared in a file of the repository that is not
part of the given sources. -/
def HmacSHA512Size : Nat := 64

/-- Modelled from the spec: PAGE_SIZE is implementation-fixed (4096).  The Go
constant `PageSize` is declared in a file of the repository that is not part
of the given sources. -/
def PageSize : Nat := 4096

/-- Modelled from the spec: ITERATIONS is the variant-fixed PBKDF2 round
count for the encryption subkey.  The Go constant `V4IterCount` is declared
in a file of the repository that is not part of the given sources; no claim
depends on its numeric value. -/
def V4IterCount : Nat := 256000

/-! ## Errors (internal/errors, collapsed to the cases the codec raises) -/

inductive Err where
  | openFileFailed : Err
  | statFileFailed : Err
  | readFileFailed : Err
  | incompleteRead : Err
  | alreadyDecrypted : Err
  | hashVerificationFailed : Err
  | createCipherFailed : Err
  | writeOutputFailed : Err
  | decodeKeyFailed : Err
  | invalidKeyLength : Nat → Err
  | invalidSQLiteHeader : Err
  | invalidPlainPageSize : Nat → Nat → Err
  | plainPageTooSmall : Nat → Nat → Nat → Err
  | invalidPlainDataLength : Nat → Nat → Err
  | reserveTooSmall : Nat → Nat → Err
  | hmacTooShort : Nat → Nat → Err
  | platformUnsupported : String → Int → Err
deriving DecidableEq

/-- The `fmt.Errorf` failures of EncryptPage that the spec groups as
*InvalidPageShape*: wrong page length, payload smaller than the reserve,
misaligned data length, or a reserve too small for IV plus HMAC. -/
def Err.isPageShape : Err → Bool
  | .invalidPlainPageSize _ _ => true
  | .plainPageTooSmall _ _ _ => true
  | .invalidPlainDataLength _ _ => true
  | .reserveTooSmall _ _ => true
  | _ => false

/-! ## Byte-buffer helpers -/

/-- Go slice expression `l[a:b]`. -/
def sliceL (l : List Nat) (a b : Nat) : List Nat := (l.drop a).take (b - a)

/-- Go `copy(dst[pos:], src)`: overwrite `dst` starting at `pos` with as much
of `src` as fits, leaving the rest of `dst` unchanged. -/
def listCopy (dst : List Nat) (pos : Nat) (src : List Nat) : List Nat :=
  dst.take pos ++ src.take (dst.length - pos) ++ dst.drop (pos + src.length)

/-- `binary.LittleEndian.PutUint32`: the 4 little-endian bytes of `n` (mod 2^32). -/
def le32 (n : Nat) : List Nat :=
  [n % 256, n / 256 % 256, n / 65536 % 256, n / 16777216 % 256]

/-- Big-endian 4-byte block counter used inside PBKDF2. -/
def be32 (n : Nat) : List Nat :=
  [n / 16777216 % 256, n / 65536 % 256, n / 256 % 256, n % 256]

/-- Byte-wise XOR of two buffers (used by CBC chaining). -/
def xorLists (a b : List Nat) : List Nat := List.zipWith Nat.xor a b

/-- XorBytes (common.go): XOR every byte of `a` with the scalar `b`. -/
def XorBytes (a : List Nat) (b : Nat) : List Nat := a.map (fun x => Nat.xor x b)

/-- Split a buffer into AES blocks of 16 bytes (the last block is short when
the input is not block-aligned; the codec only ever chunks aligned data). -/
def chunk16 (l : List Nat) : List (List Nat) :=
  if l = [] then [] else l.take 16 :: chunk16 (l.drop 16)
termination_by l.length
decreasing_by
  simp only [List.length_drop]
  have : l.length ≠ 0 := by
    intro h
    exact (by assumption : l ≠ []) (List.eq_nil_of_length_eq_zero h)
  omega

/-- CBC encryption on a list of blocks: each ciphertext block chains into the
next (crypto/cipher NewCBCEncrypter semantics). -/
def cbcEncBlocks (E : List Nat → List Nat) : List Nat → List (List Nat) → List (List Nat)
  | _, [] => []
  | iv, p :: ps =>
    let c := E (xorLists iv p)
    c :: cbcEncBlocks E c ps

/-- CBC decryption on a list of blocks (crypto/cipher NewCBCDecrypter). -/
def cbcDecBlocks (D : List Nat → List Nat) : List Nat → List (List Nat) → List (List Nat)
  | _, [] => []
  | iv, c :: cs => xorLists iv (D c) :: cbcDecBlocks D c cs

/-- CBC-encrypt a byte buffer under block function `E` and initial vector `iv`. -/
def cbcEncBytes (E : List Nat → List Nat) (iv data : List Nat) : List Nat :=
  (cbcEncBlocks E iv (chunk16 data)).flatten

/-- CBC-decrypt a byte buffer under block function `D` and initial vector `iv`. -/
def cbcDecBytes (D : List Nat → List Nat) (iv data : List Nat) : List Nat :=
  (cbcDecBlocks D iv (chunk16 data)).flatten

/-- `aes.NewCipher` succeeds exactly for key lengths 16, 24 or 32. -/
def aesKeyOk (k : List Nat) : Bool :=
  decide (k.length = 16) || decide (k.length = 24) || decide (k.length = 32)

/-! ## Hex decoding (encoding/hex.DecodeString) -/

def hexDigit (c : Char) : Option Nat :=
  if ('0' ≤ c ∧ c ≤ '9') then some (c.toNat - '0'.toNat)
  else if ('a' ≤ c ∧ c ≤ 'f') then some (c.toNat - 'a'.toNat + 10)
  else if ('A' ≤ c ∧ c ≤ 'F') then some (c.toNat - 'A'.toNat + 10)
  else none

def hexDecodeChars : List Char → Option (List Nat)
  | [] => some []
  | [_] => none
  | a :: b :: rest =>
    match hexDigit a, hexDigit b, hexDecodeChars rest with
    | some x, some y, some tl => some ((16 * x + y) :: tl)
    | _, _, _ => none

/-- `hex.DecodeString`: `none` on odd length or a non-hex character. -/
def hexDecode (s : String) : Option (List Nat) := hexDecodeChars s.toList

/-! ## PBKDF2 (golang.org/x/crypto/pbkdf2, parameterised by the PRF)

The PRF is `HMAC(hash, password)`; `hLen` is the hash output size
(`prf.Size()` in the Go source). -/

/-- The inner loop of one PBKDF2 block: `n` further PRF iterations, XORing
each output into the accumulator `t`. -/
def pbkdf2Round (prf : List Nat → List Nat) : Nat → List Nat → List Nat → List Nat
  | 0, _, t => t
  | n + 1, u, t =>
    let u2 := prf u
    pbkdf2Round prf n u2 (xorLists t u2)

/-- One PBKDF2 block `T_blockIdx` for `iter` total iterations. -/
def pbkdf2Block (prf : List Nat → List Nat) (salt : List Nat) (iter blockIdx : Nat) :
    List Nat :=
  let u1 := prf (salt ++ be32 blockIdx)
  pbkdf2Round prf (iter - 1) u1 u1

/-- `pbkdf2.Key`: concatenate `ceil(keyLen / hLen)` blocks, truncated to `keyLen`. -/
def pbkdf2Key (prf : List Nat → List Nat) (hLen : Nat) (salt : List Nat)
    (iter keyLen : Nat) : List Nat :=
  let numBlocks := (keyLen + hLen - 1) / hLen
  (((List.range numBlocks).map (fun i => pbkdf2Block prf salt iter (i + 1))).flatten).take keyLen

/-! ## The V4 codec value (internal/wechat/decrypt/windows/V4_en.go)

The Go struct carries a hash constructor; in the model the corresponding
HMAC function is passed to each operation explicitly. -/

structure V4Encryptor where
  iterCount : Nat
  hmacSize : Nat
  reserve : Nat
  pageSize : Nat
  version : String
deriving DecidableEq

/-- NewV4Encryptor: reserve is IVSize + hmacSize rounded up to a multiple of
the AES block size. -/
def NewV4Encryptor : V4Encryptor :=
  let hmacSize := HmacSHA512Size
  let reserve0 := IVSize + hmacSize
  let reserve :=
    if reserve0 % AESBlockSize = 0 then reserve0
    else (reserve0 / AESBlockSize + 1) * AESBlockSize
  ⟨V4IterCount, hmacSize, reserve, PageSize, "Windows v4"⟩

/-- deriveKeys (V4_en.go): `encKey = PBKDF2(key, salt, iterCount, 32)`,
`macKey = PBKDF2(encKey, salt XOR 0x3a, 2, 32)`, both under HMAC of the
codec's hash (`hmacF`, output size `hLen`). -/
def deriveKeys (e : V4Encryptor) (hmacF : List Nat → List Nat → List Nat)
    (hLen : Nat) (key salt : List Nat) : List Nat × List Nat :=
  let encKey := pbkdf2Key (hmacF key) hLen salt e.iterCount KeySize
  let macSalt := XorBytes salt 0x3a
  let macKey := pbkdf2Key (hmacF encKey) hLen macSalt 2 KeySize
  (encKey, macKey)

/-! ## Page primitives (common.go) -/

/-- OpenDBFile's record of an opened encrypted image. -/
structure DBFile where
  Path : String
  Salt : List Nat
  TotalPages : Nat
  FirstPage : List Nat
deriving DecidableEq

/-- OpenDBFile (common.go): the file is modelled by its byte contents.
Opening and stat-ing always succeed on a present file; a first page shorter
than `pageSize` is a read failure; a plaintext header prefix (all but the
trailing NUL byte) is rejected as already decrypted. -/
def OpenDBFile (dbPath : String) (contents : List Nat) (pageSize : Nat) :
    Except Err DBFile :=
  let fileSize := contents.length
  let totalPages := fileSize / pageSize + (if fileSize % pageSize > 0 then 1 else 0)
  if contents.length < pageSize then .error .readFileFailed
  else
    let buffer := contents.take pageSize
    if buffer.take (sqliteHeader.length - 1) = sqliteHeader.take (sqliteHeader.length - 1) then
      .error .alreadyDecrypted
    else
      .ok ⟨dbPath, buffer.take SaltSize, totalPages, buffer⟩

/-- ValidateKey (common.go): reject keys of the wrong length, then compare
the page-1 HMAC (tagged with little-endian page number 1) against the stored
tag.  `dKF` is the `deriveKeys` callback the Go function receives. -/
def ValidateKey (page1 key salt : List Nat) (hmacF : List Nat → List Nat → List Nat)
    (hmacSize reserve pageSize : Nat)
    (dKF : List Nat → List Nat → List Nat × List Nat) : Bool :=
  if key.length ≠ KeySize then false
  else
    let macKey := (dKF key salt).2
    let dataEnd := pageSize - reserve + IVSize
    let calculatedMAC := hmacF macKey (sliceL page1 SaltSize dataEnd ++ le32 1)
    let storedMAC := sliceL page1 dataEnd (dataEnd + hmacSize)
    decide (calculatedMAC = storedMAC)

/-- DecryptPage (common.go): verify the page HMAC, then CBC-decrypt the data
region and append the trailing reserve bytes unchanged. -/
def DecryptPage (pageBuf encKey macKey : List Nat) (pageNum : Nat)
    (hmacF : List Nat → List Nat → List Nat) (decB : List Nat → List Nat → List Nat)
    (hmacSize reserve pageSize : Nat) : Except Err (List Nat) :=
  let offset := if pageNum = 0 then SaltSize else 0
  let dataEnd := pageSize - reserve + IVSize
  let hashMac := hmacF macKey (sliceL pageBuf offset dataEnd ++ le32 (pageNum + 1))
  if hashMac ≠ sliceL pageBuf dataEnd (dataEnd + hmacSize) then
    .error .hashVerificationFailed
  else if ¬ aesKeyOk encKey then .error .createCipherFailed
  else
    let iv := sliceL pageBuf (pageSize - reserve) dataEnd
    let encrypted := sliceL pageBuf offset (pageSize - reserve)
    .ok (cbcDecBytes (decB encKey) iv encrypted ++ sliceL pageBuf (pageSize - reserve) pageSize)

/-- The plaintext payload EncryptPage encrypts: a full page with index 0
carries the salt in its first SaltSize bytes; every other accepted shape is
the payload itself. -/
def encPagePayload (plainPage : List Nat) (pageNum pageSize : Nat) : List Nat :=
  if pageNum = 0 ∧ plainPage.length = pageSize then plainPage.drop SaltSize else plainPage

/-- EncryptPage (common.go): validate the page shape, CBC-encrypt the data
region with the IV taken from the payload tail, assemble the output page and
overwrite the tag region with the truncated HMAC. -/
def EncryptPage (plainPage encKey macKey : List Nat) (pageNum : Nat)
    (hmacF : List Nat → List Nat → List Nat) (encB : List Nat → List Nat → List Nat)
    (hmacSize reserve pageSize : Nat) : Except Err (List Nat) :=
  let offset := if pageNum = 0 then SaltSize else 0
  if ¬ (plainPage.length = pageSize ∨ (pageNum = 0 ∧ plainPage.length + SaltSize = pageSize)) then
    .error (.invalidPlainPageSize plainPage.length pageNum)
  else
    let hasSalt := pageNum = 0 ∧ plainPage.length = pageSize
    let salt := if hasSalt then plainPage.take SaltSize else []
    let pagePayload := encPagePayload plainPage pageNum pageSize
    if pagePayload.length < reserve then
      .error (.plainPageTooSmall pagePayload.length reserve pageNum)
    else
      let dataLen := pagePayload.length - reserve
      if dataLen % AESBlockSize ≠ 0 then .error (.invalidPlainDataLength dataLen pageNum)
      else if reserve < IVSize + hmacSize then .error (.reserveTooSmall reserve hmacSize)
      else if ¬ aesKeyOk encKey then .error .createCipherFailed
      else
        let plainData := pagePayload.take dataLen
        let tail := pagePayload.drop dataLen
        let iv := tail.take IVSize
        let encryptedData := cbcEncBytes (encB encKey) iv plainData
        let pageBuf0 := List.replicate pageSize 0
        let pageBuf1 := if hasSalt then listCopy pageBuf0 0 salt else pageBuf0
        let pageBuf2 := listCopy pageBuf1 offset encryptedData
        let pageBuf3 := listCopy pageBuf2 (pageSize - reserve) tail
        let calculatedMAC :=
          hmacF macKey (sliceL pageBuf3 offset (pageSize - reserve + IVSize) ++ le32 (pageNum + 1))
        if calculatedMAC.length < hmacSize then
          .error (.hmacTooShort calculatedMAC.length hmacSize)
        else
          .ok (listCopy pageBuf3 (pageSize - reserve + IVSize) (calculatedMAC.take hmacSize))

/-! ## The streaming encryptor (V4_en.go Encrypt)

The output sink is modelled by the list of bytes written before returning;
the result pairs that list with the error, if any.  Random salt and per-page
IVs enter as oracle parameters (`salt`, `ivs`); the cancellation context is
not modelled (no claim concerns it). -/

/-- The per-page loop of Encrypt, from page index 1 on.  `rest` is the not
yet consumed part of the plaintext file.  An all-zero page (after zero-fill)
is written through unchanged; otherwise the page's reserve tail is replaced
by a fresh IV and zeros and the page is encrypted.  A short read processes
the final page and stops. -/
def encryptPages (encKey macKey : List Nat) (hmacF : List Nat → List Nat → List Nat)
    (encB : List Nat → List Nat → List Nat) (ivs : Nat → List Nat)
    (hmacSize reserve pageSize : Nat) (curPage : Nat) (rest : List Nat) :
    List Nat × Option Err :=
  if rest = [] then ([], none)
  else if rest.length < pageSize then
    let pageBuf := rest ++ List.replicate (pageSize - rest.length) 0
    if pageBuf.all (fun b => b = 0) then (pageBuf, none)
    else
      let withIV := listCopy pageBuf (pageSize - reserve)
        (ivs curPage ++ List.replicate (reserve - IVSize) 0)
      match EncryptPage withIV encKey macKey curPage hmacF encB hmacSize reserve pageSize with
      | .error er => ([], some er)
      | .ok enc => (enc, none)
  else if pageSize = 0 then ([], none)
  else
    let pageBuf := rest.take pageSize
    let next := encryptPages encKey macKey hmacF encB ivs hmacSize reserve pageSize
      (curPage + 1) (rest.drop pageSize)
    if pageBuf.all (fun b => b = 0) then (pageBuf ++ next.1, next.2)
    else
      let withIV := listCopy pageBuf (pageSize - reserve)
        (ivs curPage ++ List.replicate (reserve - IVSize) 0)
      match EncryptPage withIV encKey macKey curPage hmacF encB hmacSize reserve pageSize with
      | .error er => ([], some er)
      | .ok enc => (enc ++ next.1, next.2)
termination_by rest.length
decreasing_by
  simp only [List.length_drop]
  have h1 : ¬ rest = [] := by assumption
  have h2 : rest.length ≠ 0 := fun h => h1 (List.eq_nil_of_length_eq_zero h)
  have h3 : ¬ pageSize = 0 := by assumption
  omega

/-- Encrypt (V4_en.go): decode and length-check the key, require the exact
plaintext header, build page 0 from the salt and the first payload with a
fresh IV, then run the per-page loop.  Returns the bytes written to the
output sink and the error, if any. -/
def Encrypt (e : V4Encryptor) (hmacF : List Nat → List Nat → List Nat) (hLen : Nat)
    (encB : List Nat → List Nat → List Nat) (plainDB : List Nat) (hexKey : String)
    (salt : List Nat) (ivs : Nat → List Nat) : List Nat × Option Err :=
  match hexDecode hexKey with
  | none => ([], some .decodeKeyFailed)
  | some key =>
    if key.length ≠ KeySize then ([], some (.invalidKeyLength key.length))
    else if plainDB.length < sqliteHeader.length then ([], some .readFileFailed)
    else if plainDB.take sqliteHeader.length ≠ sqliteHeader then
      ([], some .invalidSQLiteHeader)
    else
      let fp := (plainDB.drop sqliteHeader.length).take (e.pageSize - sqliteHeader.length)
      let firstPayload := fp ++ List.replicate (e.pageSize - sqliteHeader.length - fp.length) 0
      let km := deriveKeys e hmacF hLen key salt
      let firstPlain := salt ++ firstPayload
      let firstPlain2 := listCopy firstPlain (firstPlain.length - e.reserve)
        (ivs 0 ++ List.replicate (e.reserve - IVSize) 0)
      match EncryptPage firstPlain2 km.1 km.2 0 hmacF encB e.hmacSize e.reserve e.pageSize with
      | .error er => ([], some er)
      | .ok page0 =>
        let restOut := encryptPages km.1 km.2 hmacF encB ivs e.hmacSize e.reserve e.pageSize
          1 (plainDB.drop e.pageSize)
        (page0 ++ restOut.1, restOut.2)

/-- The early failures of Encrypt, before anything reaches the output sink:
key decoding, key length, a too-short file, or a wrong plaintext header. -/
def encryptEarlyErr (plainDB : List Nat) (hexKey : String) : Option Err :=
  match hexDecode hexKey with
  | none => some .decodeKeyFailed
  | some key =>
    if key.length ≠ KeySize then some (.invalidKeyLength key.length)
    else if plainDB.length < sqliteHeader.length then some .readFileFailed
    else if plainDB.take sqliteHeader.length ≠ sqliteHeader then some .invalidSQLiteHeader
    else none

/-! ## The codec registry (decrypt.NewEncryptor) -/

/-- NewEncryptor: the factory recognizes exactly ("windows", 4). -/
def NewEncryptor (platform : String) (version : Int) : Except Err V4Encryptor :=
  if platform = "windows" ∧ version = 4 then .ok NewV4Encryptor
  else .error (.platformUnsupported platform version)

/-! ## Helper lemmas: XOR, chunking and CBC -/

theorem xorLists_length (a b : List Nat) : (xorLists a b).length = min a.length b.length := by
  simp [xorLists]

theorem xorLists_cancel : ∀ (a b : List Nat), a.length = b.length →
    xorLists a (xorLists a b) = b
  | [], [], _ => rfl
  | x :: xs, y :: ys, h => by
    simp only [xorLists, List.zipWith_cons_cons]
    have hx : Nat.xor x (Nat.xor x y) = y := by
      change x ^^^ (x ^^^ y) = y
      rw [← Nat.xor_assoc, Nat.xor_self, Nat.zero_xor]
    have ht := xorLists_cancel xs ys (by simpa using h)
    simp only [xorLists] at ht
    rw [hx, ht]

theorem chunk16_flatten (l : List Nat) : (chunk16 l).flatten = l := by
  induction l using chunk16.induct with
  | case1 => rw [chunk16, if_pos rfl, List.flatten_nil]
  | case2 l h ih =>
    rw [chunk16, if_neg h, List.flatten_cons, ih, List.take_append_drop]

theorem chunk16_all_sixteen (l : List Nat) :
    l.length % 16 = 0 → ∀ b ∈ chunk16 l, b.length = 16 := by
  induction l using chunk16.induct with
  | case1 => intro _ b hb; rw [chunk16, if_pos rfl] at hb; cases hb
  | case2 l h ih =>
    intro hl b hb
    rw [chunk16, if_neg h] at hb
    have hlen : l.length ≠ 0 := fun h0 => h (List.eq_nil_of_length_eq_zero h0)
    rcases List.mem_cons.mp hb with rfl | hb2
    · simp only [List.length_take]
      omega
    · exact ih (by simp only [List.length_drop]; omega) b hb2

theorem flatten_length_of_all (bs : List (List Nat)) (h : Nat)
    (hall : ∀ b ∈ bs, b.length = h) : bs.flatten.length = h * bs.length := by
  induction bs with
  | nil => simp
  | cons b rest ih =>
    have hb := hall b (List.mem_cons_self _ _)
    have hrest := ih (fun x hx => hall x (List.mem_cons_of_mem _ hx))
    simp only [List.flatten_cons, List.length_append, List.length_cons, hb, hrest]
    ring

theorem chunk16_flatten_inv (bs : List (List Nat)) (hall : ∀ b ∈ bs, b.length = 16) :
    chunk16 bs.flatten = bs := by
  induction bs with
  | nil => rw [List.flatten_nil, chunk16, if_pos rfl]
  | cons b rest ih =>
    have hb := hall b (List.mem_cons_self _ _)
    have hne : b ++ rest.flatten ≠ [] := by
      intro hcon
      have := congrArg List.length hcon
      simp [hb] at this
    rw [List.flatten_cons, chunk16, if_neg hne, List.take_left' hb, List.drop_left' hb,
      ih (fun x hx => hall x (List.mem_cons_of_mem _ hx))]

theorem cbcEncBlocks_count (E : List Nat → List Nat) :
    ∀ (ps : List (List Nat)) (iv : List Nat), (cbcEncBlocks E iv ps).length = ps.length
  | [], _ => rfl
  | p :: ps, iv => by
    simp only [cbcEncBlocks, List.length_cons]
    rw [cbcEncBlocks_count E ps]

theorem cbcEncBlocks_all_sixteen (E : List Nat → List Nat)
    (hE : ∀ b, b.length = 16 → (E b).length = 16) :
    ∀ (ps : List (List Nat)) (iv : List Nat), iv.length = 16 →
      (∀ p ∈ ps, p.length = 16) → ∀ c ∈ cbcEncBlocks E iv ps, c.length = 16
  | [], _, _, _ => by intro c hc; cases hc
  | p :: ps, iv, hiv, hps => by
    intro c hc
    have hp := hps p (List.mem_cons_self _ _)
    have hx : (xorLists iv p).length = 16 := by rw [xorLists_length, hiv, hp]; rfl
    have hc16 : (E (xorLists iv p)).length = 16 := hE _ hx
    simp only [cbcEncBlocks] at hc
    rcases List.mem_cons.mp hc with rfl | hc2
    · exact hc16
    · exact cbcEncBlocks_all_sixteen E hE ps _ hc16
        (fun q hq => hps q (List.mem_cons_of_mem _ hq)) c hc2

theorem cbcBlocks_roundtrip (E D : List Nat → List Nat)
    (hE : ∀ b, b.length = 16 → (E b).length = 16)
    (hD : ∀ b, b.length = 16 → D (E b) = b) :
    ∀ (ps : List (List Nat)) (iv : List Nat), iv.length = 16 →
      (∀ p ∈ ps, p.length = 16) →
      cbcDecBlocks D iv (cbcEncBlocks E iv ps) = ps
  | [], _, _, _ => rfl
  | p :: ps, iv, hiv, hps => by
    have hp := hps p (List.mem_cons_self _ _)
    have hx : (xorLists iv p).length = 16 := by rw [xorLists_length, hiv, hp]; rfl
    have hc16 : (E (xorLists iv p)).length = 16 := hE _ hx
    simp only [cbcEncBlocks, cbcDecBlocks]
    rw [hD _ hx, xorLists_cancel iv p (by rw [hiv, hp]),
      cbcBlocks_roundtrip E D hE hD ps _ hc16
        (fun q hq => hps q (List.mem_cons_of_mem _ hq))]

theorem cbcEncBytes_length (E : List Nat → List Nat) (iv data : List Nat)
    (hE : ∀ b, b.length = 16 → (E b).length = 16) (hiv : iv.length = 16)
    (hd : data.length % 16 = 0) : (cbcEncBytes E iv data).length = data.length := by
  have hall := chunk16_all_sixteen data hd
  have hallE := cbcEncBlocks_all_sixteen E hE (chunk16 data) iv hiv hall
  rw [cbcEncBytes, flatten_length_of_all _ 16 hallE, cbcEncBlocks_count]
  calc 16 * (chunk16 data).length = (chunk16 data).flatten.length := by
        rw [flatten_length_of_all _ 16 hall]
    _ = data.length := by rw [chunk16_flatten]

theorem cbcBytes_roundtrip (E D : List Nat → List Nat) (iv data : List Nat)
    (hE : ∀ b, b.length = 16 → (E b).length = 16)
    (hD : ∀ b, b.length = 16 → D (E b) = b)
    (hiv : iv.length = 16) (hd : data.length % 16 = 0) :
    cbcDecBytes D iv (cbcEncBytes E iv data) = data := by
  have hall := chunk16_all_sixteen data hd
  have hallE := cbcEncBlocks_all_sixteen E hE (chunk16 data) iv hiv hall
  rw [cbcDecBytes, cbcEncBytes, chunk16_flatten_inv _ hallE,
    cbcBlocks_roundtrip E D hE hD (chunk16 data) iv hiv hall, chunk16_flatten]

/-! ## Helper lemmas: copying into buffers -/

theorem listCopy_append (a b s : List Nat) (h : s.length ≤ b.length) :
    listCopy (a ++ b) a.length s = a ++ s ++ b.drop s.length := by
  unfold listCopy
  rw [List.take_left, List.length_append]
  have h1 : a.length + b.length - a.length = b.length := by omega
  rw [h1, List.take_of_length_le h, List.drop_append, List.append_assoc]

theorem listCopy_take_before (dst src : List Nat) (pos k : Nat) (hk : k ≤ pos)
    (hpos : pos ≤ dst.length) : (listCopy dst pos src).take k = dst.take k := by
  unfold listCopy
  rw [List.append_assoc, List.take_append_of_le_length (by simp; omega), List.take_take]
  congr 1
  omega

theorem sliceL_zero (l : List Nat) (b : Nat) : sliceL l 0 b = l.take b := by
  simp [sliceL]

theorem listCopy_length (dst src : List Nat) (pos : Nat) :
    (listCopy dst pos src).length = dst.length := by
  unfold listCopy
  simp only [List.length_append, List.length_take, List.length_drop]
  omega

/-! ## Helper lemmas: PBKDF2 output lengths -/

theorem pbkdf2Round_length (prf : List Nat → List Nat) (hLen : Nat)
    (hprf : ∀ m, (prf m).length = hLen) :
    ∀ (n : Nat) (u t : List Nat), t.length = hLen →
      (pbkdf2Round prf n u t).length = hLen
  | 0, _, _, ht => ht
  | n + 1, u, t, ht => by
    simp only [pbkdf2Round]
    exact pbkdf2Round_length prf hLen hprf n _ _
      (by rw [xorLists_length, ht, hprf u]; exact Nat.min_self _)

theorem pbkdf2Block_length (prf : List Nat → List Nat) (hLen : Nat) (salt : List Nat)
    (iter blockIdx : Nat) (hprf : ∀ m, (prf m).length = hLen) :
    (pbkdf2Block prf salt iter blockIdx).length = hLen := by
  unfold pbkdf2Block
  exact pbkdf2Round_length prf hLen hprf _ _ _ (hprf _)

theorem pbkdf2Key_length (prf : List Nat → List Nat) (hLen : Nat) (salt : List Nat)
    (iter keyLen : Nat) (hprf : ∀ m, (prf m).length = hLen) (hpos : 0 < hLen) :
    (pbkdf2Key prf hLen salt iter keyLen).length = keyLen := by
  unfold pbkdf2Key
  rw [List.length_take, flatten_length_of_all _ hLen
    (by intro b hb
        rcases List.mem_map.mp hb with ⟨i, _, rfl⟩
        exact pbkdf2Block_length prf hLen salt iter (i + 1) hprf)]
  rw [List.length_map, List.length_range]
  have hdm := Nat.div_add_mod (keyLen + hLen - 1) hLen
  have hml : (keyLen + hLen - 1) % hLen < hLen := Nat.mod_lt _ hpos
  generalize hq : (keyLen + hLen - 1) / hLen = q at hdm
  generalize hLen * q = m at hdm
  omega

/-- Rounding up a division, written the way OpenDBFile computes it, equals
the usual ceiling expression. -/
theorem divRoundUp_eq (a b : Nat) (hb : 0 < b) :
    a / b + (if a % b > 0 then 1 else 0) = (a + b - 1) / b := by
  obtain ⟨q, r, hr, rfl⟩ : ∃ q r, r < b ∧ a = b * q + r :=
    ⟨a / b, a % b, Nat.mod_lt _ hb, (Nat.div_add_mod a b).symm⟩
  rw [Nat.mul_add_div hb, Nat.mul_add_mod, Nat.mod_eq_of_lt hr,
    Nat.div_eq_of_lt hr, Nat.add_zero]
  rcases Nat.eq_zero_or_pos r with rfl | hrpos
  · rw [if_neg (by omega), Nat.add_zero, Nat.add_zero,
      Nat.add_sub_assoc (by omega) (b * q), Nat.mul_add_div hb,
      Nat.div_eq_of_lt (by omega), Nat.add_zero]
  · rw [if_pos hrpos, Nat.add_assoc, Nat.add_sub_assoc (by omega) (b * q),
      show r + b - 1 = b + (r - 1) by omega, ← Nat.add_assoc, ← Nat.mul_succ,
      Nat.mul_add_div hb, Nat.div_eq_of_lt (by omega), Nat.add_zero]

/-! ## C2: key derivation -/

/-- C2.  For every key and salt, `deriveKeys` returns
`enc_key = PBKDF2(prf = HMAC(hash, key), salt, ITERATIONS, 32)` and
`mac_key = PBKDF2(prf = HMAC(hash, enc_key), mac_salt, 2, 32)` where
`mac_salt` is the byte-wise XOR of the salt with 0x3a; when the HMAC output
width `hLen` is positive (64 for HMAC-SHA-512), both outputs are exactly
KeySize = 32 bytes long. -/
theorem deriveKeys_spec (e : V4Encryptor) (hmacF : List Nat → List Nat → List Nat)
    (hLen : Nat) (key salt : List Nat)
    (hh : ∀ k m, (hmacF k m).length = hLen) (hpos : 0 < hLen) :
    (deriveKeys e hmacF hLen key salt).1 =
      pbkdf2Key (hmacF key) hLen salt e.iterCount KeySize
    ∧ (deriveKeys e hmacF hLen key salt).2 =
      pbkdf2Key (hmacF (deriveKeys e hmacF hLen key salt).1) hLen
        (XorBytes salt 0x3a) 2 KeySize
    ∧ (XorBytes salt 0x3a).length = salt.length
    ∧ (∀ i : Nat, (XorBytes salt 0x3a)[i]? =
        Option.map (fun x => Nat.xor x 0x3a) salt[i]?)
    ∧ (deriveKeys e hmacF hLen key salt).1.length = KeySize
    ∧ (deriveKeys e hmacF hLen key salt).2.length = KeySize := by
  refine ⟨rfl, rfl, by simp [XorBytes], ?_, ?_, ?_⟩
  · intro i
    simp [XorBytes]
  · exact pbkdf2Key_length _ _ _ _ _ (hh key) hpos
  · exact pbkdf2Key_length _ _ _ _ _ (hh _) hpos

theorem deriveKeys_spec_witness :
    (deriveKeys ⟨2, 64, 80, 4096, "Windows v4"⟩ (fun _ _ => [1, 2, 3, 4]) 4 [9] [7, 8]).1 =
      pbkdf2Key ((fun (_ : List Nat) (_ : List Nat) => [1, 2, 3, 4]) [9]) 4 [7, 8]
        (V4Encryptor.iterCount ⟨2, 64, 80, 4096, "Windows v4"⟩) KeySize
    ∧ (deriveKeys ⟨2, 64, 80, 4096, "Windows v4"⟩ (fun _ _ => [1, 2, 3, 4]) 4 [9] [7, 8]).2 =
      pbkdf2Key ((fun (_ : List Nat) (_ : List Nat) => [1, 2, 3, 4])
          (deriveKeys ⟨2, 64, 80, 4096, "Windows v4"⟩ (fun _ _ => [1, 2, 3, 4]) 4 [9] [7, 8]).1) 4
        (XorBytes [7, 8] 0x3a) 2 KeySize
    ∧ (XorBytes [7, 8] 0x3a).length = ([7, 8] : List Nat).length
    ∧ (∀ i : Nat, (XorBytes [7, 8] 0x3a)[i]? =
        Option.map (fun x => Nat.xor x 0x3a) ([7, 8] : List Nat)[i]?)
    ∧ (deriveKeys ⟨2, 64, 80, 4096, "Windows v4"⟩ (fun _ _ => [1, 2, 3, 4]) 4 [9] [7, 8]).1.length = KeySize
    ∧ (deriveKeys ⟨2, 64, 80, 4096, "Windows v4"⟩ (fun _ _ => [1, 2, 3, 4]) 4 [9] [7, 8]).2.length = KeySize :=
  deriveKeys_spec ⟨2, 64, 80, 4096, "Windows v4"⟩ (fun _ _ => [1, 2, 3, 4]) 4 [9] [7, 8]
    (fun _ _ => rfl) (by decide)

/-! ## C3: key validation -/

/-- C3.  ValidateKey returns false whenever the key is not KeySize bytes,
and otherwise returns true exactly when the HMAC of
`page1[SaltSize .. pageSize - reserve + IVSize] ++ LE32(1)` under the
derived mac key equals the stored tag bytes. -/
theorem validateKey_spec (page1 key salt : List Nat)
    (hmacF : List Nat → List Nat → List Nat) (hmacSize reserve pageSize : Nat)
    (dKF : List Nat → List Nat → List Nat × List Nat) :
    ValidateKey page1 key salt hmacF hmacSize reserve pageSize dKF =
      (decide (key.length = KeySize) &&
        decide (hmacF (dKF key salt).2
            (sliceL page1 SaltSize (pageSize - reserve + IVSize) ++ le32 1) =
          sliceL page1 (pageSize - reserve + IVSize)
            (pageSize - reserve + IVSize + hmacSize))) := by
  unfold ValidateKey
  by_cases h : key.length = KeySize <;> simp [h]

/-! ## C9: the factory -/

/-- C9.  NewEncryptor returns the V4 codec exactly for ("windows", 4) and
fails with platformUnsupported for every other pair. -/
theorem newEncryptor_spec (platform : String) (version : Int) :
    (NewEncryptor platform version = .ok NewV4Encryptor ↔
      (platform = "windows" ∧ version = 4))
    ∧ (¬ (platform = "windows" ∧ version = 4) →
      NewEncryptor platform version = .error (.platformUnsupported platform version)) := by
  unfold NewEncryptor
  by_cases h : platform = "windows" ∧ version = 4 <;> simp [h]

/-! ## C8: the image opener -/

/-- C8.  On a file whose first `pageSize` bytes are readable, OpenDBFile
fails with alreadyDecrypted exactly when the first 15 bytes equal the
plaintext header's first 15 bytes (the trailing NUL is not compared), and
otherwise returns the salt, the full first page, and
`ceil(size / pageSize)` total pages. -/
theorem openDBFile_spec (dbPath : String) (contents : List Nat) (pageSize : Nat)
    (hread : pageSize ≤ contents.length) (hps : SaltSize ≤ pageSize) :
    (OpenDBFile dbPath contents pageSize = .error .alreadyDecrypted ↔
      contents.take (sqliteHeader.length - 1) =
        sqliteHeader.take (sqliteHeader.length - 1))
    ∧ (contents.take (sqliteHeader.length - 1) ≠
        sqliteHeader.take (sqliteHeader.length - 1) →
      OpenDBFile dbPath contents pageSize =
        .ok ⟨dbPath, contents.take SaltSize,
             (contents.length + pageSize - 1) / pageSize,
             contents.take pageSize⟩) := by
  have hbuf : (contents.take pageSize).take (sqliteHeader.length - 1) =
      contents.take (sqliteHeader.length - 1) := by
    rw [List.take_take]
    congr 1
    have h16 : sqliteHeader.length = 16 := rfl
    have h16s : SaltSize = 16 := rfl
    omega
  have hceil := divRoundUp_eq contents.length pageSize (by
    have h16s : SaltSize = 16 := rfl
    omega)
  have hsalt : List.take SaltSize (List.take pageSize contents) =
      List.take SaltSize contents := by
    rw [List.take_take]
    congr 1
    have h16s : SaltSize = 16 := rfl
    omega
  unfold OpenDBFile
  rw [if_neg (by omega)]
  simp only [hbuf, hsalt, hceil]
  by_cases hhdr : contents.take (sqliteHeader.length - 1) =
      sqliteHeader.take (sqliteHeader.length - 1) <;> simp [hhdr]

theorem openDBFile_spec_witness :
    (OpenDBFile "db" (List.replicate 16 1) 16 = .error .alreadyDecrypted ↔
      (List.replicate 16 1).take (sqliteHeader.length - 1) =
        sqliteHeader.take (sqliteHeader.length - 1))
    ∧ ((List.replicate 16 1).take (sqliteHeader.length - 1) ≠
        sqliteHeader.take (sqliteHeader.length - 1) →
      OpenDBFile "db" (List.replicate 16 1) 16 =
        .ok ⟨"db", (List.replicate 16 1).take SaltSize,
             ((List.replicate 16 1).length + 16 - 1) / 16,
             (List.replicate 16 1).take 16⟩) :=
  openDBFile_spec "db" (List.replicate 16 1) 16 (by decide) (by decide)

/-! ## C10: validation and decryption agree on page 1 -/

/-- C10.  For a 32-byte key, ValidateKey accepts exactly when DecryptPage on
the first page (page index 0) with the keys derived by the same callback
does not fail its HMAC check: both compare the same recomputed HMAC against
the same stored tag bytes. -/
theorem validate_decrypt_agree (page1 key salt : List Nat)
    (hmacF : List Nat → List Nat → List Nat) (decB : List Nat → List Nat → List Nat)
    (hmacSize reserve pageSize : Nat)
    (dKF : List Nat → List Nat → List Nat × List Nat)
    (hkey : key.length = KeySize) :
    ValidateKey page1 key salt hmacF hmacSize reserve pageSize dKF = true ↔
      DecryptPage page1 (dKF key salt).1 (dKF key salt).2 0 hmacF decB
          hmacSize reserve pageSize ≠ .error .hashVerificationFailed := by
  unfold ValidateKey DecryptPage
  rw [if_neg (by simp [hkey])]
  by_cases hmac : hmacF (dKF key salt).2
      (sliceL page1 SaltSize (pageSize - reserve + IVSize) ++ le32 1) =
      sliceL page1 (pageSize - reserve + IVSize) (pageSize - reserve + IVSize + hmacSize)
  · by_cases hk : aesKeyOk (dKF key salt).1 <;> simp [hmac, hk]
  · simp [hmac]

theorem validate_decrypt_agree_witness :
    ValidateKey (List.replicate 48 0) (List.replicate 32 0) [] (fun _ _ => [0, 0, 0, 0])
        4 32 48 (fun _ _ => ([], [])) = true ↔
      DecryptPage (List.replicate 48 0) ((fun (_ : List Nat) (_ : List Nat) =>
            (([] : List Nat), ([] : List Nat))) (List.replicate 32 0) []).1
          ((fun (_ : List Nat) (_ : List Nat) => (([] : List Nat), ([] : List Nat)))
            (List.replicate 32 0) []).2 0
          (fun _ _ => [0, 0, 0, 0]) (fun _ b => b) 4 32 48 ≠
        .error .hashVerificationFailed :=
  validate_decrypt_agree (List.replicate 48 0) (List.replicate 32 0) []
    (fun _ _ => [0, 0, 0, 0]) (fun _ b => b) 4 32 48 (fun _ _ => ([], [])) (by decide)

/-! ## C4: the decryption HMAC check -/

/-- C4.  DecryptPage fails with hashVerificationFailed exactly when the HMAC
recomputed over `page[off .. pageSize - reserve + IVSize] ++ LE32(pageNum+1)`
differs from the stored tag; when they agree (and the key has a valid AES
length, 32 bytes here) it proceeds to CBC decryption and returns a result. -/
theorem decryptPage_hmac_check (pageBuf encKey macKey : List Nat) (pageNum : Nat)
    (hmacF : List Nat → List Nat → List Nat) (decB : List Nat → List Nat → List Nat)
    (hmacSize reserve pageSize : Nat) (hkey : encKey.length = KeySize) :
    (DecryptPage pageBuf encKey macKey pageNum hmacF decB hmacSize reserve pageSize =
        .error .hashVerificationFailed ↔
      hmacF macKey (sliceL pageBuf (if pageNum = 0 then SaltSize else 0)
          (pageSize - reserve + IVSize) ++ le32 (pageNum + 1)) ≠
        sliceL pageBuf (pageSize - reserve + IVSize)
          (pageSize - reserve + IVSize + hmacSize))
    ∧ (hmacF macKey (sliceL pageBuf (if pageNum = 0 then SaltSize else 0)
          (pageSize - reserve + IVSize) ++ le32 (pageNum + 1)) =
        sliceL pageBuf (pageSize - reserve + IVSize)
          (pageSize - reserve + IVSize + hmacSize) →
      ∃ r, DecryptPage pageBuf encKey macKey pageNum hmacF decB hmacSize reserve
          pageSize = .ok r) := by
  have hk : aesKeyOk encKey = true := by
    simp [aesKeyOk, hkey, KeySize]
  unfold DecryptPage
  by_cases hmac : hmacF macKey (sliceL pageBuf (if pageNum = 0 then SaltSize else 0)
      (pageSize - reserve + IVSize) ++ le32 (pageNum + 1)) =
      sliceL pageBuf (pageSize - reserve + IVSize)
        (pageSize - reserve + IVSize + hmacSize) <;>
    simp [hmac, hk]

theorem decryptPage_hmac_check_witness :
    (DecryptPage (List.replicate 48 0) (List.replicate 32 1) [] 1 (fun _ _ => [0, 0, 0, 0])
        (fun _ b => b) 4 32 48 = .error .hashVerificationFailed ↔
      (fun (_ : List Nat) (_ : List Nat) => [0, 0, 0, 0]) []
          (sliceL (List.replicate 48 0) (if (1 : Nat) = 0 then SaltSize else 0)
            (48 - 32 + IVSize) ++ le32 (1 + 1)) ≠
        sliceL (List.replicate 48 0) (48 - 32 + IVSize) (48 - 32 + IVSize + 4))
    ∧ ((fun (_ : List Nat) (_ : List Nat) => [0, 0, 0, 0]) []
          (sliceL (List.replicate 48 0) (if (1 : Nat) = 0 then SaltSize else 0)
            (48 - 32 + IVSize) ++ le32 (1 + 1)) =
        sliceL (List.replicate 48 0) (48 - 32 + IVSize) (48 - 32 + IVSize + 4) →
      ∃ r, DecryptPage (List.replicate 48 0) (List.replicate 32 1) [] 1
          (fun _ _ => [0, 0, 0, 0]) (fun _ b => b) 4 32 48 = .ok r) :=
  decryptPage_hmac_check (List.replicate 48 0) (List.replicate 32 1) [] 1
    (fun _ _ => [0, 0, 0, 0]) (fun _ b => b) 4 32 48 (by decide)

/-! ## C7: Encrypt fails early with nothing written -/

/-- C7.  Whenever the hex key does not decode, the decoded key is not
KeySize bytes, the file is too short for the header, or the first
header-length bytes differ from the canonical header, Encrypt returns that
error with an empty output: no bytes reach the sink. -/
theorem encrypt_early_failures (e : V4Encryptor)
    (hmacF : List Nat → List Nat → List Nat) (hLen : Nat)
    (encB : List Nat → List Nat → List Nat) (plainDB : List Nat) (hexKey : String)
    (salt : List Nat) (ivs : Nat → List Nat) (er : Err)
    (h : encryptEarlyErr plainDB hexKey = some er) :
    Encrypt e hmacF hLen encB plainDB hexKey salt ivs = ([], some er) := by
  unfold encryptEarlyErr at h
  unfold Encrypt
  cases hdec : hexDecode hexKey with
  | none =>
    rw [hdec] at h
    dsimp only at h ⊢
    cases Option.some.inj h
    rfl
  | some key =>
    rw [hdec] at h
    dsimp only at h ⊢
    by_cases h1 : key.length ≠ KeySize
    · rw [if_pos h1] at h ⊢
      cases Option.some.inj h
      rfl
    · rw [if_neg h1] at h ⊢
      by_cases h2 : plainDB.length < sqliteHeader.length
      · rw [if_pos h2] at h ⊢
        cases Option.some.inj h
        rfl
      · rw [if_neg h2] at h ⊢
        by_cases h3 : plainDB.take sqliteHeader.length ≠ sqliteHeader
        · rw [if_pos h3] at h ⊢
          cases Option.some.inj h
          rfl
        · rw [if_neg h3] at h
          cases h

theorem encrypt_early_failures_witness :
    Encrypt NewV4Encryptor (fun _ _ => []) 64 (fun _ b => b) [] "zz" []
      (fun _ => []) = ([], some .decodeKeyFailed) :=
  encrypt_early_failures NewV4Encryptor (fun _ _ => []) 64 (fun _ b => b) [] "zz" []
    (fun _ => []) .decodeKeyFailed (by decide)

/-! ## C5: all-zero pages pass through the encryptor loop -/

/-- C5.  In the per-page loop of Encrypt (page indices ≥ 1), a page whose
bytes after zero-filling a short read are all zero is written to the output
unchanged — it stays the all-zero page, independently of the keys, the IV
oracle, the HMAC and the block cipher — and the loop moves on (stopping
after a short read). -/
theorem encryptPages_zero_page (encKey macKey : List Nat)
    (hmacF : List Nat → List Nat → List Nat) (encB : List Nat → List Nat → List Nat)
    (ivs : Nat → List Nat) (hmacSize reserve pageSize curPage : Nat) (rest : List Nat)
    (hnz : rest ≠ []) (hpp : 0 < pageSize)
    (hzero : (rest.take pageSize ++ List.replicate (pageSize - rest.length) 0).all
      (fun b => b = 0) = true) :
    encryptPages encKey macKey hmacF encB ivs hmacSize reserve pageSize curPage rest =
      if pageSize ≤ rest.length then
        (List.replicate pageSize 0 ++
          (encryptPages encKey macKey hmacF encB ivs hmacSize reserve pageSize
            (curPage + 1) (rest.drop pageSize)).1,
         (encryptPages encKey macKey hmacF encB ivs hmacSize reserve pageSize
            (curPage + 1) (rest.drop pageSize)).2)
      else (List.replicate pageSize 0, none) := by
  rw [encryptPages]
  rw [if_neg hnz]
  by_cases hshort : rest.length < pageSize
  · have htake : rest.take pageSize = rest := List.take_of_length_le (by omega)
    rw [htake] at hzero
    have hrep : rest ++ List.replicate (pageSize - rest.length) 0 =
        List.replicate pageSize 0 := by
      refine List.eq_replicate_iff.mpr ⟨?_, ?_⟩
      · simp only [List.length_append, List.length_replicate]
        omega
      · exact fun b hb => of_decide_eq_true (List.all_eq_true.mp hzero b hb)
    rw [if_pos hshort, hrep, if_pos (by
      exact List.all_eq_true.mpr (fun b hb => by
        have := List.eq_of_mem_replicate hb
        simp [this])), if_neg (by omega)]
  · have hrep : rest.take pageSize = List.replicate pageSize 0 := by
      have hfill : pageSize - rest.length = 0 := by omega
      rw [hfill] at hzero
      simp only [List.replicate_zero, List.append_nil] at hzero
      refine List.eq_replicate_iff.mpr ⟨?_, ?_⟩
      · simp only [List.length_take]
        omega
      · exact fun b hb => of_decide_eq_true (List.all_eq_true.mp hzero b hb)
    rw [if_neg hshort, if_neg (by omega), hrep, if_pos (by
      exact List.all_eq_true.mpr (fun b hb => by
        have := List.eq_of_mem_replicate hb
        simp [this])), if_pos (by omega)]

theorem encryptPages_zero_page_witness :
    encryptPages [] [] (fun _ _ => []) (fun _ b => b) (fun _ => []) 4 32 4 1 [0, 0] =
      if 4 ≤ ([0, 0] : List Nat).length then
        (List.replicate 4 0 ++
          (encryptPages [] [] (fun _ _ => []) (fun _ b => b) (fun _ => []) 4 32 4
            (1 + 1) (([0, 0] : List Nat).drop 4)).1,
         (encryptPages [] [] (fun _ _ => []) (fun _ b => b) (fun _ => []) 4 32 4
            (1 + 1) (([0, 0] : List Nat).drop 4)).2)
      else (List.replicate 4 0, none) :=
  encryptPages_zero_page [] [] (fun _ _ => []) (fun _ b => b) (fun _ => []) 4 32 4 1 [0, 0]
    (by decide) (by decide) (by decide)

/-! ## C6: EncryptPage input shape -/

/-- The leading SaltSize bytes of the page buffer EncryptPage assembles for
the salt-less page-0 form stay zero: every copy lands at or after offset
SaltSize. -/
theorem listCopy_take_saltSize (P reserve : Nat) (encryptedData tail mac : List Nat)
    (h16r : SaltSize ≤ P - reserve) (hres : SaltSize ≤ P) (hIr : IVSize ≤ reserve) :
    (listCopy (listCopy (listCopy (List.replicate P 0) SaltSize encryptedData)
        (P - reserve) tail) (P - reserve + IVSize) mac).take SaltSize =
      List.replicate SaltSize 0 := by
  have l0 : (List.replicate P 0 : List Nat).length = P := List.length_replicate _ _
  have l2 : (listCopy (List.replicate P 0) SaltSize encryptedData).length = P := by
    rw [listCopy_length, l0]
  have l3 : (listCopy (listCopy (List.replicate P 0) SaltSize encryptedData)
      (P - reserve) tail).length = P := by
    rw [listCopy_length, l2]
  have hI : IVSize = 16 := rfl
  have hS : SaltSize = 16 := rfl
  rw [listCopy_take_before _ _ _ SaltSize (by omega) (by rw [l3]; omega),
    listCopy_take_before _ _ _ SaltSize h16r (by rw [l2]; omega),
    listCopy_take_before _ _ _ SaltSize (Nat.le_refl _) (by rw [l0]; omega),
    List.take_replicate]
  congr 1
  omega

set_option maxHeartbeats 1600000 in
/-- C6.  EncryptPage fails with a page-shape error exactly when the page
length is not PAGE_SIZE (nor PAGE_SIZE - SALT_SIZE with page index 0), or
the payload is smaller than the reserve (data_len negative), or data_len is
not a multiple of the AES block size, or the reserve cannot hold IV plus
HMAC; and in the salt-less page-0 form a successful output keeps its leading
SaltSize bytes zero. -/
theorem encryptPage_shape (plainPage encKey macKey : List Nat) (pageNum : Nat)
    (hmacF : List Nat → List Nat → List Nat) (encB : List Nat → List Nat → List Nat)
    (hmacSize reserve pageSize : Nat) :
    ((∃ er, EncryptPage plainPage encKey macKey pageNum hmacF encB hmacSize reserve
        pageSize = .error er ∧ er.isPageShape = true) ↔
      ¬ ((plainPage.length = pageSize ∨
            (pageNum = 0 ∧ plainPage.length + SaltSize = pageSize))
        ∧ reserve ≤ (encPagePayload plainPage pageNum pageSize).length
        ∧ ((encPagePayload plainPage pageNum pageSize).length - reserve) % AESBlockSize = 0
        ∧ IVSize + hmacSize ≤ reserve))
    ∧ (pageNum = 0 → plainPage.length + SaltSize = pageSize →
      ∀ buf, EncryptPage plainPage encKey macKey pageNum hmacF encB hmacSize reserve
          pageSize = .ok buf → buf.take SaltSize = List.replicate SaltSize 0) := by
  unfold EncryptPage
  by_cases hs : plainPage.length = pageSize ∨
      (pageNum = 0 ∧ plainPage.length + SaltSize = pageSize)
  · rw [if_neg (not_not_intro hs)]
    by_cases hp : (encPagePayload plainPage pageNum pageSize).length < reserve
    · rw [if_pos hp]
      refine ⟨⟨fun _ => fun hc => absurd hc.2.1 (by omega), fun _ => ⟨_, rfl, rfl⟩⟩,
        fun _ _ buf hbuf => by cases hbuf⟩
    · rw [if_neg hp]
      by_cases hd : ((encPagePayload plainPage pageNum pageSize).length - reserve) %
          AESBlockSize ≠ 0
      · rw [if_pos hd]
        refine ⟨⟨fun _ => fun hc => absurd hc.2.2.1 hd, fun _ => ⟨_, rfl, rfl⟩⟩,
          fun _ _ buf hbuf => by cases hbuf⟩
      · rw [if_neg hd]
        by_cases hr : reserve < IVSize + hmacSize
        · rw [if_pos hr]
          refine ⟨⟨fun _ => fun hc => absurd hc.2.2.2 (by omega), fun _ => ⟨_, rfl, rfl⟩⟩,
            fun _ _ buf hbuf => by cases hbuf⟩
        · rw [if_neg hr]
          have hclaim : (plainPage.length = pageSize ∨
              (pageNum = 0 ∧ plainPage.length + SaltSize = pageSize))
            ∧ reserve ≤ (encPagePayload plainPage pageNum pageSize).length
            ∧ ((encPagePayload plainPage pageNum pageSize).length - reserve) %
                AESBlockSize = 0
            ∧ IVSize + hmacSize ≤ reserve :=
            ⟨hs, Nat.le_of_not_lt hp, of_not_not hd, Nat.le_of_not_lt hr⟩
          by_cases hk : ¬ aesKeyOk encKey = true
          · rw [if_pos hk]
            refine ⟨⟨?_, fun hc => absurd hclaim hc⟩, fun _ _ buf hbuf => by cases hbuf⟩
            rintro ⟨er, her, hshape⟩
            cases her
            cases hshape
          · rw [if_neg hk]
            constructor
            · constructor
              · rintro ⟨er, her, hshape⟩
                rcases ite_eq_iff.mp her with ⟨_, hx⟩ | ⟨_, hy⟩
                · cases hx
                  cases hshape
                · cases hy
              · intro hc
                exact absurd hclaim hc
            · intro h0 hlen buf hbuf
              subst h0
              have hns : ¬ ((0 : Nat) = 0 ∧ plainPage.length = pageSize) := by
                intro hc
                have hS : SaltSize = 16 := rfl
                omega
              rcases ite_eq_iff.mp hbuf with ⟨_, hx⟩ | ⟨_, hy⟩
              · cases hx
              · obtain rfl := Except.ok.inj hy
                have hlp : plainPage.length ≠ pageSize := by
                  have hS : SaltSize = 16 := rfl
                  omega
                have hpay : encPagePayload plainPage 0 pageSize = plainPage := by
                  unfold encPagePayload
                  exact if_neg (fun hc => hlp hc.2)
                simp only [eq_self_iff_true, true_and, if_neg hlp, if_true]
                apply listCopy_take_saltSize
                · have hS : SaltSize = 16 := rfl
                  have hple := Nat.le_of_not_lt hp
                  rw [hpay] at hple
                  omega
                · have hS : SaltSize = 16 := rfl
                  omega
                · have := Nat.le_of_not_lt hr
                  omega
  · rw [if_pos hs]
    refine ⟨⟨fun _ => fun hc => absurd hc.1 hs, fun _ => ⟨_, rfl, rfl⟩⟩,
      fun h0 hlen buf hbuf => by cases hbuf⟩

/-! ## C1: per-page round trip -/

theorem listCopy_append2 (a b s : List Nat) (pos : Nat) (hpos : a.length = pos)
    (h : s.length ≤ b.length) :
    listCopy (a ++ b) pos s = a ++ s ++ b.drop s.length := by
  subst hpos
  exact listCopy_append a b s h

/-- Assembling an encrypted page for a page index ≥ 1: copying the
ciphertext at offset 0 and the tail at the reserve boundary of a zeroed
buffer yields exactly ciphertext ++ tail. -/
theorem pageBuf_assemble (C tailL : List Nat) (pageSize reserve : Nat)
    (hC : C.length = pageSize - reserve) (hT : tailL.length = reserve)
    (hrp : reserve ≤ pageSize) :
    listCopy (listCopy (List.replicate pageSize 0) 0 C) (pageSize - reserve) tailL =
      C ++ tailL := by
  have h1 : listCopy (List.replicate pageSize 0) 0 C =
      C ++ List.replicate reserve 0 := by
    have := listCopy_append [] (List.replicate pageSize 0) C
      (by simp only [List.length_replicate]; omega)
    simp only [List.nil_append, List.length_nil, List.drop_replicate] at this
    rw [this]
    congr 1
    congr 1
    omega
  rw [h1, listCopy_append2 C (List.replicate reserve 0) tailL (pageSize - reserve) hC
    (by simp only [List.length_replicate]; omega)]
  simp [hT]

/-- Overwriting the tag region of ciphertext ++ tail with `S` splits the
buffer as ciphertext ++ IV ++ S ++ rest-of-tail. -/
theorem pageBuf_mac_copy (C tailL S : List Nat) (pageSize reserve : Nat)
    (hC : C.length = pageSize - reserve) (hT : tailL.length = reserve)
    (hIr : IVSize ≤ reserve) (hS : S.length ≤ reserve - IVSize) :
    listCopy (C ++ tailL) (pageSize - reserve + IVSize) S =
      (C ++ tailL.take IVSize) ++ S ++ (tailL.drop IVSize).drop S.length := by
  have hsplit : C ++ tailL = (C ++ tailL.take IVSize) ++ tailL.drop IVSize := by
    rw [List.append_assoc, List.take_append_drop]
  rw [hsplit, listCopy_append2 (C ++ tailL.take IVSize) (tailL.drop IVSize) S
    (pageSize - reserve + IVSize)
    (by simp only [List.length_append, List.length_take, hC, hT]; omega)
    (by simp only [List.length_drop, hT]; omega)]

set_option maxHeartbeats 1600000 in
/-- C1.  Per-page round trip: with 32-byte keys, a page index ≥ 1, an
HMAC whose output width equals `hmacSize`, and an invertible 16-byte block
cipher, DecryptPage inverts EncryptPage on every well-shaped page (full
page whose last `reserve` bytes are an IV followed by zeros): the first
`pageSize - reserve` bytes and the IV bytes at offset `pageSize - reserve`
come back unchanged. -/
theorem encrypt_decrypt_page_roundtrip (p encKey macKey : List Nat) (pageNum : Nat)
    (hmacF : List Nat → List Nat → List Nat)
    (encB decB : List Nat → List Nat → List Nat) (hmacSize reserve pageSize : Nat)
    (hE : ∀ b, b.length = 16 → (encB encKey b).length = 16)
    (hD : ∀ b, b.length = 16 → decB encKey (encB encKey b) = b)
    (hH : ∀ k m, (hmacF k m).length = hmacSize)
    (hkey : encKey.length = KeySize) (hmk : macKey.length = KeySize)
    (hpn : 1 ≤ pageNum) (hplen : p.length = pageSize)
    (hres : IVSize + hmacSize ≤ reserve) (hrp : reserve ≤ pageSize)
    (halign : (pageSize - reserve) % AESBlockSize = 0)
    (hzero : p.drop (pageSize - reserve + IVSize) = List.replicate (reserve - IVSize) 0) :
    ∃ encP decP,
      EncryptPage p encKey macKey pageNum hmacF encB hmacSize reserve pageSize = .ok encP
      ∧ DecryptPage encP encKey macKey pageNum hmacF decB hmacSize reserve pageSize =
          .ok decP
      ∧ decP.take (pageSize - reserve) = p.take (pageSize - reserve)
      ∧ sliceL decP (pageSize - reserve) (pageSize - reserve + IVSize) =
          sliceL p (pageSize - reserve) (pageSize - reserve + IVSize) := by
  have hA16 : AESBlockSize = 16 := rfl
  have hI16 : IVSize = 16 := rfl
  rw [hA16] at halign
  have hno : ¬ pageNum = 0 := by omega
  have hns : ¬ (pageNum = 0 ∧ p.length = pageSize) := fun hc => hno hc.1
  have hpay : encPagePayload p pageNum pageSize = p := by
    unfold encPagePayload
    exact if_neg hns
  have hkOk : aesKeyOk encKey = true := by
    simp [aesKeyOk, hkey, KeySize]
  set tailL := p.drop (pageSize - reserve) with htl
  set plainData := p.take (pageSize - reserve) with hpd
  set iv := tailL.take IVSize with hivdef
  set C := cbcEncBytes (encB encKey) iv plainData with hCdef
  set M := hmacF macKey ((C ++ iv) ++ le32 (pageNum + 1)) with hMdef
  set R := (tailL.drop IVSize).drop hmacSize with hRdef
  have hPDlen : plainData.length = pageSize - reserve := by
    rw [hpd, List.length_take, hplen]
    omega
  have hTlen : tailL.length = reserve := by
    rw [htl, List.length_drop, hplen]
    omega
  have hivlen : iv.length = IVSize := by
    rw [hivdef, List.length_take, hTlen]
    omega
  have hiv16 : iv.length = 16 := hivlen.trans hI16
  have halignPD : plainData.length % 16 = 0 := by
    rw [hPDlen]
    exact halign
  have hClen : C.length = pageSize - reserve := by
    rw [hCdef, cbcEncBytes_length (encB encKey) iv plainData hE hiv16 halignPD]
    exact hPDlen
  have hM : M.length = hmacSize := by
    rw [hMdef]
    exact hH _ _
  have hRlen : R.length = reserve - IVSize - hmacSize := by
    rw [hRdef]
    simp only [List.length_drop, hTlen]
  have hCiv : (C ++ iv).length = pageSize - reserve + IVSize := by
    simp only [List.length_append, hClen, hivlen]
  have hFassoc : (C ++ iv) ++ M ++ R = C ++ (iv ++ (M ++ R)) := by
    simp [List.append_assoc]
  have hFassoc2 : (C ++ iv) ++ M ++ R = (C ++ iv) ++ (M ++ R) := by
    simp [List.append_assoc]
  have hBlen : (iv ++ (M ++ R)).length = reserve := by
    simp only [List.length_append, hivlen, hM, hRlen]
    omega
  have hslice0 : sliceL ((C ++ iv) ++ M ++ R) 0 (pageSize - reserve + IVSize) =
      C ++ iv := by
    rw [sliceL_zero, hFassoc2, List.take_left' hCiv]
  have hsliceStored : sliceL ((C ++ iv) ++ M ++ R) (pageSize - reserve + IVSize)
      (pageSize - reserve + IVSize + hmacSize) = M := by
    simp only [sliceL]
    rw [Nat.add_sub_cancel_left, hFassoc2, List.drop_left' hCiv, List.take_left' hM]
  have hsliceData : sliceL ((C ++ iv) ++ M ++ R) 0 (pageSize - reserve) = C := by
    rw [sliceL_zero, hFassoc, List.take_left' hClen]
  have hsliceIV : sliceL ((C ++ iv) ++ M ++ R) (pageSize - reserve)
      (pageSize - reserve + IVSize) = iv := by
    simp only [sliceL]
    rw [Nat.add_sub_cancel_left, hFassoc, List.drop_left' hClen, List.take_left' hivlen]
  have hsliceTail : sliceL ((C ++ iv) ++ M ++ R) (pageSize - reserve) pageSize =
      iv ++ (M ++ R) := by
    simp only [sliceL]
    rw [hFassoc, List.drop_left' hClen]
    have hrw : pageSize - (pageSize - reserve) = reserve := by omega
    rw [hrw]
    exact List.take_of_length_le (le_of_eq hBlen)
  have hdec : cbcDecBytes (decB encKey) iv C = plainData := by
    rw [hCdef]
    exact cbcBytes_roundtrip (encB encKey) (decB encKey) iv plainData hE hD hiv16 halignPD
  refine ⟨(C ++ iv) ++ M ++ R, plainData ++ (iv ++ (M ++ R)), ?_, ?_, ?_, ?_⟩
  · -- EncryptPage evaluates to the assembled page
    unfold EncryptPage
    rw [if_neg (not_not_intro (Or.inl hplen))]
    simp only [hpay, hplen, eq_self_iff_true, and_true, if_neg hno]
    rw [if_neg (by omega : ¬ pageSize < reserve)]
    rw [if_neg (not_not_intro (by rw [hA16]; exact halign))]
    rw [if_neg (Nat.not_lt.mpr hres)]
    rw [if_neg (not_not_intro hkOk)]
    rw [← htl, ← hpd, ← hivdef, ← hCdef]
    rw [pageBuf_assemble C tailL pageSize reserve hClen hTlen hrp]
    rw [show sliceL (C ++ tailL) 0 (pageSize - reserve + IVSize) = C ++ iv by
      rw [sliceL_zero, ← hClen, List.take_append, ← hivdef]]
    rw [← hMdef]
    rw [if_neg (by rw [hM]; exact Nat.lt_irrefl _)]
    rw [List.take_of_length_le (le_of_eq hM)]
    rw [pageBuf_mac_copy C tailL M pageSize reserve hClen hTlen (by omega)
      (by rw [hM]; omega)]
    rw [hM, ← hRdef, ← hivdef]
  · -- DecryptPage inverts it
    unfold DecryptPage
    simp only [if_neg hno, hslice0, hsliceStored, hsliceIV, hsliceData, hsliceTail]
    rw [← hMdef]
    rw [if_neg (not_not_intro rfl)]
    rw [if_neg (not_not_intro hkOk)]
    rw [hdec]
  · rw [List.take_left' hPDlen, hpd]
  · simp only [sliceL]
    rw [Nat.add_sub_cancel_left, List.drop_left' hPDlen, List.take_left' hivlen,
      ← htl, ← hivdef]

theorem encrypt_decrypt_page_roundtrip_witness :
    ∃ encP decP,
      EncryptPage (List.replicate 48 0) (List.replicate 32 1) (List.replicate 32 2) 1
        (fun _ _ => List.replicate 16 7) (fun _ b => b) 16 32 48 = .ok encP
      ∧ DecryptPage encP (List.replicate 32 1) (List.replicate 32 2) 1
          (fun _ _ => List.replicate 16 7) (fun _ b => b) 16 32 48 = .ok decP
      ∧ decP.take (48 - 32) = (List.replicate 48 0).take (48 - 32)
      ∧ sliceL decP (48 - 32) (48 - 32 + IVSize) =
          sliceL (List.replicate 48 0) (48 - 32) (48 - 32 + IVSize) :=
  encrypt_decrypt_page_roundtrip (List.replicate 48 0) (List.replicate 32 1)
    (List.replicate 32 2) 1 (fun _ _ => List.replicate 16 7) (fun _ b => b) (fun _ b => b)
    16 32 48 (fun _ hb => hb) (fun _ _ => rfl) (fun _ _ => rfl) (by decide) (by decide)
    (by decide) (by decide) (by decide) (by decide) (by decide) (by decide)

end Chatlog
